import Mathlib

set_option maxRecDepth 4000

/-!
Verification of the cell-extraction and encoding pipeline of
`make_cells_bin.py` (the "CEL1" sparse cell encoder).

The script partitions a decoded RGBA image into `block`-sized cells,
averages each channel over every cell with integer floor division,
drops cells whose averaged alpha or BT.709 luma falls strictly below the
configured thresholds, and writes a little-endian binary file: a 16-byte
header (`"<I I H H H H"`: magic, count, wCells, hCells, block, flags)
followed by one packed record per surviving cell (`"<ffBBBB"`: u, v as
32-bit floats and r, g, b, a as bytes).

Modelling conventions:
* Pixels and channel sums are `Nat` (Python ints are unbounded; PIL
  channels are 8-bit, a fact used only where a claim needs it).
* Command-line integers (`--block`, `--black`, `--alpha`) are `Int`.
* The luma computation of line 10 is modelled bit-faithfully: `fl64`
  rounds an exact rational to the nearest IEEE-754 binary64 value (ties
  to even), the decimal literals and every multiplication and addition
  are rounded exactly as CPython rounds them, and the `float < int`
  threshold comparison is Python's exact comparison of the double's
  value with the integer.  The `(ix+0.5)/wC` cell centers are modelled
  as exact rationals; the claims about them concern the formulas and
  their ranges.
* `struct.pack` of a 32-bit float is modelled by an executable IEEE-754
  binary32 round-to-nearest-even encoder of the exact rational; the
  byte-level claims only use that the encoding is 4 bytes wide.
* The `with open(path, "wb") as f:` block truncates/creates the file and
  then streams one `f.write` per `struct.pack`; `struct.pack` raises
  (struct.error) on an out-of-range field before anything of that chunk
  is written.  `writeStream` models the file content and the first
  raised error of that process.
-/

namespace CellsBin

/-- One RGBA pixel or one per-channel accumulator. -/
structure RGBA where
  r : Nat
  g : Nat
  b : Nat
  a : Nat
deriving DecidableEq, Repr

/-- A decoded image: dimensions plus a (total) pixel lookup.
`px x y` is `px[x,y]` of the PIL image; the encoder only ever reads
coordinates inside the cropped `wC*bs × hC*bs` rectangle, where the
cropped image agrees with the original. -/
structure Img where
  w : Nat
  h : Nat
  px : Nat → Nat → RGBA

/-- Round a rational to the nearest integer, ties to even (the IEEE-754
default rounding, used both by the binary64 model of the luma
computation and by the binary32 packer below). -/
def rne (q : ℚ) : ℤ :=
  let f := ⌊q⌋
  if q - f < 1/2 then f
  else if 1/2 < q - f then f + 1
  else if f % 2 = 0 then f else f + 1

/-- `2^k` as a rational, for an integer exponent (computed through
`Nat.pow` so that it evaluates shallowly). -/
def pow2 (k : ℤ) : ℚ :=
  if 0 ≤ k then ((2 ^ k.toNat : Nat) : ℚ) else 1 / ((2 ^ (-k).toNat : Nat) : ℚ)

/-- `⌊log₂ n⌋` by fuelled halving (`0` for `n ≤ 1`): same value as
`Nat.log2`, but defined by structural recursion on the fuel so that it
evaluates shallowly. -/
def log2fuel : Nat → Nat → Nat
  | 0, _ => 0
  | fuel + 1, n => if n ≤ 1 then 0 else log2fuel fuel (n / 2) + 1

/-- `⌊log₂ n⌋` (`0` for `n ≤ 1`). -/
def natLog2 (n : Nat) : Nat := log2fuel n n

/-- `⌊log₂ q⌋` for a positive rational. -/
def floorLog2 (q : ℚ) : ℤ :=
  let c : ℤ := (natLog2 q.num.natAbs : ℤ) - (natLog2 q.den : ℤ)
  if q < pow2 c then c - 1
  else if pow2 (c + 1) ≤ q then c + 1
  else c

/-- The exact rational value of the IEEE-754 binary64 double nearest to
`q` (round to nearest, ties to even; 53-bit significand).  Valid in the
normal range, which covers every value of the script's luma
computation. -/
def fl64 (q : ℚ) : ℚ :=
  if q = 0 then 0
  else
    let s : ℚ := if q < 0 then -1 else 1
    let a : ℚ := |q|
    let e : ℤ := floorLog2 a
    s * ((rne (a * pow2 (52 - e)) : ℤ) : ℚ) * pow2 (e - 52)

/-- Line 10: `def luma(r,g,b): return 0.2126*r + 0.7152*g + 0.0722*b`,
evaluated as CPython evaluates it: each decimal literal is the nearest
binary64 double, and each multiplication and (left-associated) addition
rounds its exact result back to binary64.  The result is the exact
rational value of the computed double (its `r,g,b` arguments, integer
cell averages in `[0,255]`, are exactly representable). -/
def luma (r g b : ℚ) : ℚ :=
  fl64 (fl64 (fl64 (fl64 0.2126 * r) + fl64 (fl64 0.7152 * g)) + fl64 (fl64 0.0722 * b))

/-- Lines 35-39: the per-cell accumulation loop
`for y in range(jy*bs, jy*bs+bs): for x in range(ix*bs, ix*bs+bs): ...`
summing the four channels of `px[x,y]` into `r,g,b,alp` (all starting
at 0). -/
def blockSum (img : Img) (bs ix jy : Nat) : RGBA :=
  (List.range' (jy * bs) bs).foldl
    (fun acc y =>
      (List.range' (ix * bs) bs).foldl
        (fun acc x =>
          let p := img.px x y
          ⟨acc.r + p.r, acc.g + p.g, acc.b + p.b, acc.a + p.a⟩)
        acc)
    ⟨0, 0, 0, 0⟩

/-- Lines 40-41: `n=bs*bs; R=r//n; G=g//n; B=b//n; A=alp//n`
(Python `//` on nonnegative ints is `Nat` floor division). -/
def cellAvg (img : Img) (bs ix jy : Nat) : RGBA :=
  let s := blockSum img bs ix jy
  let n := bs * bs
  ⟨s.r / n, s.g / n, s.b / n, s.a / n⟩

/-- One element of the `entries` list built at line 44:
`entries.append((u,v,R,G,B,A))`. -/
structure Entry where
  u : ℚ
  v : ℚ
  r : Nat
  g : Nat
  b : Nat
  a : Nat
deriving DecidableEq, Repr

/-- Line 43-44: `u=(ix+0.5)/wC; v=(jy+0.5)/hC` and the appended tuple. -/
def mkEntry (wC hC ix jy : Nat) (c : RGBA) : Entry :=
  ⟨((ix : ℚ) + 1/2) / (wC : ℚ), ((jy : ℚ) + 1/2) / (hC : ℚ), c.r, c.g, c.b, c.a⟩

/-- Line 42: the skip condition `A < a.alpha or luma(R,G,B) < a.black`.
Thresholds are Python ints; `luma` returns the exact value of the
computed binary64 double, and Python's `float < int` comparison is
exact, so the rational comparison below is bit-faithful to line 42. -/
def excluded (black alpha : Int) (c : RGBA) : Prop :=
  (c.a : Int) < alpha ∨ luma (c.r : ℚ) (c.g : ℚ) (c.b : ℚ) < (black : ℚ)

instance (black alpha : Int) (c : RGBA) : Decidable (excluded black alpha c) := by
  unfold excluded; exact inferInstance

/-- Lines 24 and 31-44: `wC,hC = w//a.block, h//a.block` and the double
scan loop `for jy in range(hC): for ix in range(wC): ...` appending the
surviving entries in row-major order (for a positive block size). -/
def entries (img : Img) (bs : Nat) (black alpha : Int) : List Entry :=
  (List.range (img.h / bs)).flatMap fun jy =>
    (List.range (img.w / bs)).filterMap fun ix =>
      let c := cellAvg img bs ix jy
      if excluded black alpha c then none
      else some (mkEntry (img.w / bs) (img.h / bs) ix jy c)

/-! ### Binary serialization (`struct.pack`, lines 6-8 and 48-51) -/

/-- Little-endian bytes of a 16-bit value (`struct` format `H`). -/
def u16le (n : Nat) : List Nat := [n % 256, n / 256 % 256]

/-- Little-endian bytes of a 32-bit value (`struct` format `I`). -/
def u32le (n : Nat) : List Nat :=
  [n % 256, n / 256 % 256, n / 65536 % 256, n / 16777216 % 256]

/-- IEEE-754 binary32 bit pattern of a nonnegative rational
(round-to-nearest-even; subnormals and overflow-to-infinity included).
Models `struct.pack("<f", ...)` of the nonnegative cell centers `u,v`;
only the 4-byte width of the result matters to the claims below. -/
def encF32 (q : ℚ) : Nat :=
  if q ≤ 0 then 0
  else
    let e : ℤ := max (floorLog2 q) (-126)
    let m : Nat := (rne (q * pow2 (23 - e))).toNat
    let em : ℤ × Nat := if m = 2 ^ 24 then (e + 1, 2 ^ 23) else (e, m)
    if 127 < em.1 then 0x7f800000
    else if em.2 < 2 ^ 23 then em.2
    else (em.1 + 127).toNat * 2 ^ 23 + (em.2 - 2 ^ 23)

/-- The 4 little-endian bytes `struct.pack("<f", q)` produces. -/
def f32le (q : ℚ) : List Nat := u32le (encF32 q)

/-- Line 6: `MAGIC = 0x43454C31  # 'CEL1'`. -/
def MAGIC : Int := 0x43454C31

/-- `struct` conversion of one `I` field: bytes if the value is in
`[0, 2^32)`, otherwise a raised `struct.error` (`none`). -/
def packU32 (n : Int) : Option (List Nat) :=
  if 0 ≤ n ∧ n < 4294967296 then some (u32le n.toNat) else none

/-- `struct` conversion of one `H` field: bytes if the value is in
`[0, 2^16)`, otherwise a raised `struct.error` (`none`). -/
def packU16 (n : Int) : Option (List Nat) :=
  if 0 ≤ n ∧ n < 65536 then some (u16le n.toNat) else none

/-- Line 49: `struct.pack(HEADER_FMT, MAGIC, len(entries), wC, hC, bs, 0)`
with `HEADER_FMT = "<I I H H H H"` (no padding with `<`). -/
def packHeader (wC hC block : Int) (count : Nat) : Option (List Nat) := do
  let b1 ← packU32 MAGIC
  let b2 ← packU32 (count : Int)
  let b3 ← packU16 wC
  let b4 ← packU16 hC
  let b5 ← packU16 block
  let b6 ← packU16 0
  pure (b1 ++ b2 ++ b3 ++ b4 ++ b5 ++ b6)

/-- Line 51: `struct.pack(ENTRY_FMT, float(u), float(v), R,G,B,A)` with
`ENTRY_FMT = "<ffBBBB"`; each `B` field must be in `[0, 255]`. -/
def packEntry (e : Entry) : Option (List Nat) :=
  if e.r ≤ 255 ∧ e.g ≤ 255 ∧ e.b ≤ 255 ∧ e.a ≤ 255 then
    some (f32le e.u ++ f32le e.v ++ [e.r, e.g, e.b, e.a])
  else none

/-- The exceptions the script can raise in the modelled region. -/
inductive PyError where
  | zeroDivisionError
  | structError
deriving DecidableEq, Repr

/-- Observable outcome of one invocation: the final content of the
output file (`none` when it was never opened) and the raised error, if
any. -/
structure RunOutcome where
  outFile : Option (List Nat)
  err : Option PyError
deriving DecidableEq, Repr

/-- Lines 48-51: the file is opened (created/truncated) and then each
successfully packed chunk is appended in order; a failing `struct.pack`
aborts the run, leaving everything already written in the file. -/
def writeStream (acc : List Nat) : List (Option (List Nat)) → RunOutcome
  | [] => ⟨some acc, none⟩
  | none :: _ => ⟨some acc, some .structError⟩
  | some c :: rest => writeStream (acc ++ c) rest

/-- The sequence of `struct.pack` chunks lines 49-51 write: one header
chunk, then one chunk per entry.  For a negative block size
`hC = h // block ≤ 0`, so `range(hC)` is empty and `entries == []`. -/
def chunksOf (img : Img) (block black alpha : Int) : List (Option (List Nat)) :=
  let wC : Int := Int.fdiv (img.w : Int) block
  let hC : Int := Int.fdiv (img.h : Int) block
  let es : List Entry :=
    if block < 0 then [] else entries img block.toNat black alpha
  [packHeader wC hC block es.length] ++ es.map packEntry

/-- Lines 22-51 of `main` (the core pipeline; image decode, preview
rendering and the final report are external).  `block = 0` raises
`ZeroDivisionError` at `w//a.block` (line 24), before the output file is
opened. -/
def run (img : Img) (block black alpha : Int) : RunOutcome :=
  if block = 0 then ⟨none, some .zeroDivisionError⟩
  else writeStream [] (chunksOf img block black alpha)

/-- Read the little-endian 32-bit value at offset `i` of a byte list
(as a file reader would). -/
def readU32 (l : List Nat) (i : Nat) : Nat :=
  l.getD i 0 + 256 * (l.getD (i + 1) 0 + 256 * (l.getD (i + 2) 0 + 256 * l.getD (i + 3) 0))

/-- A reader's magic/size sanity check on a candidate `cells.bin`: a
complete header whose magic matches and whose recorded entry count is
consistent with the file size (12-byte entries). -/
def sanityCheck (l : List Nat) : Prop :=
  16 ≤ l.length ∧ readU32 l 0 = 0x43454C31 ∧ l.length = 16 + 12 * readU32 l 4

/-! ### Concrete images used by witnesses and counterexamples -/

/-- A 1×1 fully opaque white image. -/
def white1 : Img := ⟨1, 1, fun _ _ => ⟨255, 255, 255, 255⟩⟩

/-- A 2×2 fully opaque white image. -/
def white2 : Img := ⟨2, 2, fun _ _ => ⟨255, 255, 255, 255⟩⟩

/-- A 3×3 image: white inside the 2×2 crop region, junk outside. -/
def crop3a : Img :=
  ⟨3, 3, fun x y => if x < 2 ∧ y < 2 then ⟨255, 255, 255, 255⟩ else ⟨1, 2, 3, 4⟩⟩

/-- Like `crop3a` but with different junk outside the 2×2 crop region. -/
def crop3b : Img :=
  ⟨3, 3, fun x y => if x < 2 ∧ y < 2 then ⟨255, 255, 255, 255⟩ else ⟨9, 9, 9, 9⟩⟩

/-- A 1×1 image of the uniform color (10,10,10,255): its cell average
has exact BT.709 luma exactly 10, the default black threshold. -/
def gray10 : Img := ⟨1, 1, fun _ _ => ⟨10, 10, 10, 255⟩⟩

/-- A 2×2 image whose pixels have alpha 255, 0, 255, 0 (scenario of §8). -/
def stripe2 : Img :=
  ⟨2, 2, fun x y => if (x + y) % 2 = 0 then ⟨255, 255, 255, 255⟩ else ⟨255, 255, 255, 0⟩⟩

/-! ### Helper lemmas -/

/-- A left fold that accumulates four channels independently equals the
four channel-wise sums. -/
lemma foldl_rgba_add (fr fg fb fa : Nat → Nat) (l : List Nat) (a0 : RGBA) :
    l.foldl (fun acc x => ⟨acc.r + fr x, acc.g + fg x, acc.b + fb x, acc.a + fa x⟩) a0
      = ⟨a0.r + (l.map fr).sum, a0.g + (l.map fg).sum,
         a0.b + (l.map fb).sum, a0.a + (l.map fa).sum⟩ := by
  induction l generalizing a0 with
  | nil => simp
  | cons x l ih => simp [ih, Nat.add_assoc]

/-- Sum of a function mapped over `range' s n` as a `Finset.range` sum. -/
lemma range'_map_sum (f : Nat → Nat) (s n : Nat) :
    ((List.range' s n).map f).sum = ∑ i ∈ Finset.range n, f (s + i) := by
  induction n generalizing s with
  | zero => simp
  | succ n ih =>
    rw [List.range'_succ, List.map_cons, List.sum_cons, ih, Finset.sum_range_succ']
    simp only [Nat.add_zero]
    rw [Nat.add_comm]
    congr 1
    refine Finset.sum_congr rfl fun i _ => ?_
    congr 1
    omega

/-- The accumulation loop computes, per channel, the double sum over the
cell's pixel block. -/
lemma blockSum_spec (img : Img) (bs ix jy : Nat) :
    blockSum img bs ix jy =
      ⟨∑ y ∈ Finset.range bs, ∑ x ∈ Finset.range bs, (img.px (ix * bs + x) (jy * bs + y)).r,
       ∑ y ∈ Finset.range bs, ∑ x ∈ Finset.range bs, (img.px (ix * bs + x) (jy * bs + y)).g,
       ∑ y ∈ Finset.range bs, ∑ x ∈ Finset.range bs, (img.px (ix * bs + x) (jy * bs + y)).b,
       ∑ y ∈ Finset.range bs, ∑ x ∈ Finset.range bs, (img.px (ix * bs + x) (jy * bs + y)).a⟩ := by
  simp only [blockSum, foldl_rgba_add]
  simp [range'_map_sum]

/-- Membership in the entry list, characterized by grid position,
visibility and the constructed entry. -/
lemma mem_entries_iff {img : Img} {bs : Nat} {black alpha : Int} {e : Entry} :
    e ∈ entries img bs black alpha ↔
      ∃ ix jy, ix < img.w / bs ∧ jy < img.h / bs ∧
        ¬ excluded black alpha (cellAvg img bs ix jy) ∧
        e = mkEntry (img.w / bs) (img.h / bs) ix jy (cellAvg img bs ix jy) := by
  simp only [entries, List.mem_flatMap, List.mem_filterMap, List.mem_range]
  constructor
  · rintro ⟨jy, hjy, ix, hix, hsome⟩
    by_cases hex : excluded black alpha (cellAvg img bs ix jy)
    · simp [hex] at hsome
    · simp only [hex, if_false, Option.some.injEq] at hsome
      exact ⟨ix, jy, hix, hjy, hex, hsome.symm⟩
  · rintro ⟨ix, jy, hix, hjy, hex, rfl⟩
    exact ⟨jy, hjy, ix, hix, by simp [hex]⟩

/-- The grid origin `(ix, jy)` of an entry is recoverable from its
`(u, v)` center: `mkEntry` is injective in the grid coordinates. -/
lemma mkEntry_inj {wC hC ix jy ix' jy' : Nat} {c c' : RGBA}
    (hw : 0 < wC) (hh : 0 < hC)
    (h : mkEntry wC hC ix jy c = mkEntry wC hC ix' jy' c') :
    ix = ix' ∧ jy = jy' := by
  have hwQ : ((wC : ℚ)) ≠ 0 := by positivity
  have hhQ : ((hC : ℚ)) ≠ 0 := by positivity
  have hu := congrArg Entry.u h
  have hv := congrArg Entry.v h
  simp only [mkEntry] at hu hv
  have hu2 := congrArg (fun q => q * (wC : ℚ)) hu
  have hv2 := congrArg (fun q => q * (hC : ℚ)) hv
  simp only [div_mul_cancel₀ _ hwQ, div_mul_cancel₀ _ hhQ] at hu2 hv2
  have hx : (ix : ℚ) = (ix' : ℚ) := by linarith
  have hy : (jy : ℚ) = (jy' : ℚ) := by linarith
  exact ⟨Nat.cast_inj.mp hx, Nat.cast_inj.mp hy⟩

/-- Concatenating per-key lists preserves pairwise order when each list
is ordered and keys relate elements across lists. -/
lemma pw_flatMap {α β : Type} {R : α → α → Prop} {f : β → List α} {l : List β}
    (h1 : ∀ b ∈ l, (f b).Pairwise R)
    (h2 : l.Pairwise fun b c => ∀ x ∈ f b, ∀ y ∈ f c, R x y) :
    (l.flatMap f).Pairwise R := by
  induction l with
  | nil => simp
  | cons b l ih =>
    rw [List.flatMap_cons, List.pairwise_append]
    obtain ⟨hbc, h2'⟩ := List.pairwise_cons.mp h2
    refine ⟨h1 b (List.mem_cons_self b l),
      ih (fun c hc => h1 c (List.mem_cons_of_mem _ hc)) h2', ?_⟩
    intro x hx y hy
    obtain ⟨c, hc, hyc⟩ := List.mem_flatMap.mp hy
    exact hbc c hc x hx y hyc

/-- `filterMap` preserves pairwise order coming from the source list. -/
lemma pw_filterMap {α β : Type} {R : α → α → Prop} {g : β → Option α} {l : List β}
    (h : l.Pairwise fun b c => ∀ x, g b = some x → ∀ y, g c = some y → R x y) :
    (l.filterMap g).Pairwise R := by
  induction l with
  | nil => simp
  | cons b l ih =>
    obtain ⟨hb, h'⟩ := List.pairwise_cons.mp h
    rw [List.filterMap_cons]
    cases hg : g b with
    | none => exact ih h'
    | some x =>
      rw [List.pairwise_cons]
      refine ⟨fun y hy => ?_, ih h'⟩
      obtain ⟨c, hc, hgc⟩ := List.mem_filterMap.mp hy
      exact hb c hc x hg y hgc

/-- The `v` coordinate of anything produced by row `jy` of the scan. -/
lemma mem_row_v {img : Img} {bs : Nat} {black alpha : Int} {jy : Nat} {e : Entry}
    (he : e ∈ (List.range (img.w / bs)).filterMap fun ix =>
      let c := cellAvg img bs ix jy
      if excluded black alpha c then none
      else some (mkEntry (img.w / bs) (img.h / bs) ix jy c)) :
    e.v = ((jy : ℚ) + 1/2) / ((img.h / bs : Nat) : ℚ) := by
  obtain ⟨ix, -, hg⟩ := List.mem_filterMap.mp he
  by_cases hex : excluded black alpha (cellAvg img bs ix jy)
  · simp [hex] at hg
  · simp only [hex, if_false, Option.some.injEq] at hg
    rw [← hg]
    rfl

/-- Fold congruence: folds agree when the step functions agree on every
list element. -/
lemma foldl_congr_mem {β : Type} {f g : RGBA → β → RGBA} (l : List β) (acc : RGBA)
    (h : ∀ x ∈ l, ∀ a, f a x = g a x) : l.foldl f acc = l.foldl g acc := by
  induction l generalizing acc with
  | nil => rfl
  | cons x l ih =>
    rw [List.foldl_cons, List.foldl_cons, h x (List.mem_cons_self x l)]
    exact ih _ fun x' hx' a => h x' (List.mem_cons_of_mem _ hx') a

/-- The accumulation loop of a cell only reads pixels of that cell's
block. -/
lemma blockSum_congr {img img' : Img} {bs ix jy : Nat}
    (h : ∀ x y, ix * bs ≤ x → x < ix * bs + bs → jy * bs ≤ y → y < jy * bs + bs →
      img.px x y = img'.px x y) :
    blockSum img bs ix jy = blockSum img' bs ix jy := by
  unfold blockSum
  apply foldl_congr_mem
  intro y hy acc
  apply foldl_congr_mem
  intro x hx a
  have hyb := List.mem_range'_1.mp hy
  have hxb := List.mem_range'_1.mp hx
  simp only [h x y hxb.1 hxb.2 hyb.1 hyb.2]

/-- `flatMap` congruence on list members. -/
lemma flatMap_congr_mem {α β : Type} {f g : β → List α} {l : List β}
    (h : ∀ b ∈ l, f b = g b) : l.flatMap f = l.flatMap g := by
  induction l with
  | nil => rfl
  | cons b l ih =>
    rw [List.flatMap_cons, List.flatMap_cons, h b (List.mem_cons_self b l)]
    rw [ih fun b' hb' => h b' (List.mem_cons_of_mem _ hb')]

/-- `filterMap` congruence on list members. -/
lemma filterMap_congr_mem {α β : Type} {f g : β → Option α} {l : List β}
    (h : ∀ b ∈ l, f b = g b) : l.filterMap f = l.filterMap g := by
  induction l with
  | nil => rfl
  | cons b l ih =>
    rw [List.filterMap_cons, List.filterMap_cons, h b (List.mem_cons_self b l)]
    rw [ih fun b' hb' => h b' (List.mem_cons_of_mem _ hb')]

/-- A successfully packed entry record is 12 bytes. -/
lemma packEntry_some_length {e : Entry} {c : List Nat} (h : packEntry e = some c) :
    c.length = 12 := by
  unfold packEntry at h
  split at h
  · cases h
    simp [f32le, u32le]
  · cases h

/-- Structure, width and field bounds of a successfully packed header. -/
lemma packHeader_some {wC hC block : Int} {m : Nat} {hdr : List Nat}
    (h : packHeader wC hC block m = some hdr) :
    hdr = u32le 0x43454C31 ++ u32le m ++ u16le wC.toNat ++ u16le hC.toNat ++
        u16le block.toNat ++ u16le 0 ∧
      hdr.length = 16 ∧ m < 4294967296 ∧
      0 ≤ wC ∧ wC < 65536 ∧ 0 ≤ hC ∧ hC < 65536 ∧ 0 ≤ block ∧ block < 65536 := by
  unfold packHeader packU32 packU16 MAGIC at h
  split_ifs at h with h1 h2 h3 h4 h5 h6 <;> simp at h
  have hm : m < 4294967296 := by exact_mod_cast h2.2
  refine ⟨?_, ?_, hm, h3.1, h3.2, h4.1, h4.2, h5.1, h5.2⟩
  · rw [← h]
    simp [List.append_assoc]
  · rw [← h]
    simp [u32le, u16le]

/-- What streaming the packed entry chunks leaves in the file: a prefix
of complete 12-byte records; the stream errors iff not all entries were
written. -/
lemma writeStream_entries_spec (es : List Entry) (acc : List Nat) :
    ∃ bodies : List (List Nat),
      (∀ c ∈ bodies, c.length = 12) ∧
      (writeStream acc (es.map packEntry)).outFile = some (acc ++ bodies.flatten) ∧
      bodies.length ≤ es.length ∧
      ((writeStream acc (es.map packEntry)).err = none ↔ bodies.length = es.length) := by
  induction es generalizing acc with
  | nil => exact ⟨[], by simp, by simp [writeStream], by simp, by simp [writeStream]⟩
  | cons e es ih =>
    cases hpe : packEntry e with
    | none =>
      refine ⟨[], by simp, ?_, by simp, ?_⟩
      · simp [writeStream, hpe]
      · simp [writeStream, hpe]
    | some c =>
      obtain ⟨bodies, h12, hout, hle, herr⟩ := ih (acc ++ c)
      refine ⟨c :: bodies, ?_, ?_, ?_, ?_⟩
      · intro c' hc'
        rcases List.mem_cons.mp hc' with rfl | hmem
        · exact packEntry_some_length hpe
        · exact h12 c' hmem
      · rw [List.map_cons]
        simp only [writeStream, hpe]
        rw [hout, List.flatten_cons, List.append_assoc]
      · simpa using Nat.succ_le_succ hle
      · rw [List.map_cons]
        simp only [writeStream, hpe, List.length_cons]
        rw [herr]
        omega

/-- Total byte length of a list of 12-byte records. -/
lemma flatten_length_of_uniform {bodies : List (List Nat)}
    (h : ∀ c ∈ bodies, c.length = 12) :
    bodies.flatten.length = 12 * bodies.length := by
  induction bodies with
  | nil => simp
  | cons c bodies ih =>
    rw [List.flatten_cons, List.length_append, h c (List.mem_cons_self c bodies),
      ih fun c' hc' => h c' (List.mem_cons_of_mem _ hc'), List.length_cons]
    ring

/-- Python `w // block` for a positive block size is `Nat` division. -/
lemma fdiv_toNat (w : Nat) {block : Int} (hb : 0 < block) :
    (Int.fdiv (w : Int) block).toNat = w / block.toNat := by
  obtain ⟨b, rfl⟩ : ∃ b : Nat, block = (b : Int) := ⟨block.toNat, (Int.toNat_of_nonneg hb.le).symm⟩
  rw [Int.fdiv_eq_ediv _ (by omega), ← Int.natCast_div]
  simp only [Int.toNat_natCast]

/-- For a positive block size the run streams one header chunk followed
by one chunk per entry. -/
lemma run_pos (img : Img) {block : Int} (black alpha : Int) (hb : 0 < block) :
    run img block black alpha =
      writeStream []
        (packHeader (Int.fdiv (img.w : Int) block) (Int.fdiv (img.h : Int) block) block
            (entries img block.toNat black alpha).length ::
          (entries img block.toNat black alpha).map packEntry) := by
  rw [run, if_neg (by omega)]
  simp only [chunksOf, if_neg (by omega : ¬ block < 0), List.singleton_append]

/-- The count recorded at offset 4 of the header. -/
lemma readU32_count {m : Nat} (hm : m < 4294967296) (l : List Nat) :
    readU32 (u32le 0x43454C31 ++ u32le m ++ l) 4 = m := by
  simp [readU32, u32le]
  omega

end CellsBin

namespace CellsBin

/-! ### Claim theorems -/

/-- Claim C3: for every grid cell and positive block size, the cell
average sums each channel over the `bs*bs` pixels of the block
`[ix*bs, ix*bs+bs) × [jy*bs, jy*bs+bs)` and divides each channel sum by
`bs*bs` with integer floor division. -/
theorem c3_cell_average (img : Img) (bs ix jy : Nat) (hbs : 0 < bs) :
    cellAvg img bs ix jy =
      ⟨(∑ y ∈ Finset.range bs, ∑ x ∈ Finset.range bs, (img.px (ix * bs + x) (jy * bs + y)).r) / (bs * bs),
       (∑ y ∈ Finset.range bs, ∑ x ∈ Finset.range bs, (img.px (ix * bs + x) (jy * bs + y)).g) / (bs * bs),
       (∑ y ∈ Finset.range bs, ∑ x ∈ Finset.range bs, (img.px (ix * bs + x) (jy * bs + y)).b) / (bs * bs),
       (∑ y ∈ Finset.range bs, ∑ x ∈ Finset.range bs, (img.px (ix * bs + x) (jy * bs + y)).a) / (bs * bs)⟩ := by
  simp only [cellAvg, blockSum_spec]

/-- Witness for C3 at the §8 stripe scenario (2×2 block, alpha average
`(255+0+255+0)/4 = 127`). -/
theorem c3_witness :
    0 < 2 ∧
      cellAvg stripe2 2 0 0 =
        ⟨(∑ y ∈ Finset.range 2, ∑ x ∈ Finset.range 2, (stripe2.px (0 * 2 + x) (0 * 2 + y)).r) / (2 * 2),
         (∑ y ∈ Finset.range 2, ∑ x ∈ Finset.range 2, (stripe2.px (0 * 2 + x) (0 * 2 + y)).g) / (2 * 2),
         (∑ y ∈ Finset.range 2, ∑ x ∈ Finset.range 2, (stripe2.px (0 * 2 + x) (0 * 2 + y)).b) / (2 * 2),
         (∑ y ∈ Finset.range 2, ∑ x ∈ Finset.range 2, (stripe2.px (0 * 2 + x) (0 * 2 + y)).a) / (2 * 2)⟩ :=
  ⟨by decide, c3_cell_average stripe2 2 0 0 (by decide)⟩

/-- Claim C6: with block size 1 the Block Reducer is the identity; every
cell average equals its source pixel and every surviving entry carries
the source pixel's exact channels. -/
theorem c6_block_one_identity (img : Img) (black alpha : Int) :
    (∀ ix jy, cellAvg img 1 ix jy = img.px ix jy) ∧
    ∀ e ∈ entries img 1 black alpha, ∃ ix jy, ix < img.w ∧ jy < img.h ∧
      e.r = (img.px ix jy).r ∧ e.g = (img.px ix jy).g ∧
      e.b = (img.px ix jy).b ∧ e.a = (img.px ix jy).a := by
  have h1 : ∀ ix jy, cellAvg img 1 ix jy = img.px ix jy := by
    intro ix jy
    rw [c3_cell_average img 1 ix jy Nat.one_pos]
    simp
  refine ⟨h1, fun e he => ?_⟩
  rw [mem_entries_iff] at he
  obtain ⟨ix, jy, hix, hjy, -, rfl⟩ := he
  rw [Nat.div_one] at hix hjy
  exact ⟨ix, jy, hix, hjy, by simp [mkEntry, h1 ix jy]⟩

/-- C2 (code behavior at the failing input): a cell averaging
(10,10,10) has exact luma `0.2126*10 + 0.7152*10 + 0.0722*10 = 10`,
exactly equal to the default black threshold, so the claim keeps it;
but the program's binary64 evaluation of line 42 produces
`5629499534213119/2^49 = 9.999999999999998 < 10`, so the cell is
dropped and a 1×1 image of that color encodes zero entries.  (The alpha
half of the boundary claim is an exact integer comparison and does hold
in the code.) -/
theorem c2_threshold_boundary_bug :
    (0.2126 * (10 : ℚ) + 0.7152 * 10 + 0.0722 * 10 = 10) ∧
    (luma 10 10 10).num = 5629499534213119 ∧ (luma 10 10 10).den = 562949953421312 ∧
    luma 10 10 10 < 10 ∧
    excluded 10 8 ⟨10, 10, 10, 255⟩ ∧
    entries gray10 1 10 8 = [] := by with_unfolding_all decide

/-- Claim C4: every emitted entry comes from a unique grid cell with
center coordinates `u = (ix+0.5)/wC`, `v = (jy+0.5)/hC` in `[0,1)`; the
list is in strict row-major scan order (`jy` outer ascending, `ix` inner
ascending), so no two entries share an origin. -/
theorem c4_row_major_order (img : Img) (bs : Nat) (black alpha : Int) :
    (∀ e ∈ entries img bs black alpha,
      ∃ ix jy, ix < img.w / bs ∧ jy < img.h / bs ∧
        e = mkEntry (img.w / bs) (img.h / bs) ix jy (cellAvg img bs ix jy) ∧
        (0 : ℚ) ≤ e.u ∧ e.u < 1 ∧ (0 : ℚ) ≤ e.v ∧ e.v < 1) ∧
    (entries img bs black alpha).Pairwise
      (fun e₁ e₂ => e₁.v < e₂.v ∨ (e₁.v = e₂.v ∧ e₁.u < e₂.u)) ∧
    ((entries img bs black alpha).map fun e => (e.u, e.v)).Nodup := by
  have hbound : ∀ e ∈ entries img bs black alpha,
      ∃ ix jy, ix < img.w / bs ∧ jy < img.h / bs ∧
        e = mkEntry (img.w / bs) (img.h / bs) ix jy (cellAvg img bs ix jy) ∧
        (0 : ℚ) ≤ e.u ∧ e.u < 1 ∧ (0 : ℚ) ≤ e.v ∧ e.v < 1 := by
    intro e he
    obtain ⟨ix, jy, hx, hy, -, rfl⟩ := mem_entries_iff.mp he
    have hwQ : (0 : ℚ) < ((img.w / bs : Nat) : ℚ) := by
      exact_mod_cast Nat.lt_of_le_of_lt (Nat.zero_le ix) hx
    have hhQ : (0 : ℚ) < ((img.h / bs : Nat) : ℚ) := by
      exact_mod_cast Nat.lt_of_le_of_lt (Nat.zero_le jy) hy
    have hxQ : ((ix : ℚ)) + 1 ≤ ((img.w / bs : Nat) : ℚ) := by exact_mod_cast hx
    have hyQ : ((jy : ℚ)) + 1 ≤ ((img.h / bs : Nat) : ℚ) := by exact_mod_cast hy
    refine ⟨ix, jy, hx, hy, rfl, ?_, ?_, ?_, ?_⟩
    · exact div_nonneg (by positivity) (by positivity)
    · exact (div_lt_one hwQ).mpr (by linarith)
    · exact div_nonneg (by positivity) (by positivity)
    · exact (div_lt_one hhQ).mpr (by linarith)
  have hpw : (entries img bs black alpha).Pairwise
      (fun e₁ e₂ => e₁.v < e₂.v ∨ (e₁.v = e₂.v ∧ e₁.u < e₂.u)) := by
    rw [entries]
    apply pw_flatMap
    · intro jy _
      apply pw_filterMap
      have base := List.pairwise_lt_range (img.w / bs)
      refine base.imp_of_mem fun {ix ix'} _ hmem' hlt x hgx y hgy => ?_
      have hwpos : 0 < img.w / bs := Nat.lt_of_le_of_lt (Nat.zero_le ix') (List.mem_range.mp hmem')
      have hwQ : (0 : ℚ) < ((img.w / bs : Nat) : ℚ) := by exact_mod_cast hwpos
      by_cases hex : excluded black alpha (cellAvg img bs ix jy)
      · simp [hex] at hgx
      · by_cases hex' : excluded black alpha (cellAvg img bs ix' jy)
        · simp [hex'] at hgy
        · simp only [hex, hex', if_false, Option.some.injEq] at hgx hgy
          subst hgx hgy
          right
          refine ⟨rfl, ?_⟩
          show ((ix : ℚ) + 1/2) / _ < ((ix' : ℚ) + 1/2) / _
          rw [div_lt_div_iff hwQ hwQ]
          have : (ix : ℚ) < (ix' : ℚ) := by exact_mod_cast hlt
          nlinarith
    · have base := List.pairwise_lt_range (img.h / bs)
      refine base.imp_of_mem fun {jy jy'} _ hmem' hlt x hx y hy => ?_
      have hhpos : 0 < img.h / bs := Nat.lt_of_le_of_lt (Nat.zero_le jy') (List.mem_range.mp hmem')
      have hhQ : (0 : ℚ) < ((img.h / bs : Nat) : ℚ) := by exact_mod_cast hhpos
      left
      rw [mem_row_v hx, mem_row_v hy, div_lt_div_iff hhQ hhQ]
      have : (jy : ℚ) < (jy' : ℚ) := by exact_mod_cast hlt
      nlinarith
  refine ⟨hbound, hpw, ?_⟩
  have hnd : ((entries img bs black alpha).map fun e => (e.u, e.v)).Pairwise (· ≠ ·) := by
    rw [List.pairwise_map]
    refine hpw.imp fun {e₁ e₂} h => ?_
    intro heq
    have hu : e₁.u = e₂.u := congrArg Prod.fst heq
    have hv : e₁.v = e₂.v := congrArg Prod.snd heq
    rcases h with h | ⟨-, h⟩
    · exact absurd hv (ne_of_lt h)
    · exact absurd hu (ne_of_lt h)
  exact hnd

/-- Claim C5: the grid is `wC = W / bs`, `hC = H / bs` (floor), and
pixels at or beyond `x = wC*bs` or `y = hC*bs` never influence any cell
average or emitted entry: two images of equal dimensions that agree on
the cropped rectangle produce identical averages and identical entry
lists. -/
theorem c5_crop_irrelevant (img img' : Img) (bs : Nat) (black alpha : Int)
    (hw : img.w = img'.w) (hh : img.h = img'.h)
    (hpx : ∀ x y, x < (img.w / bs) * bs → y < (img.h / bs) * bs → img.px x y = img'.px x y) :
    (∀ ix jy, ix < img.w / bs → jy < img.h / bs →
      cellAvg img bs ix jy = cellAvg img' bs ix jy) ∧
    entries img bs black alpha = entries img' bs black alpha := by
  have hcell : ∀ ix jy, ix < img.w / bs → jy < img.h / bs →
      cellAvg img bs ix jy = cellAvg img' bs ix jy := by
    intro ix jy hx hy
    unfold cellAvg
    rw [blockSum_congr fun x y hx1 hx2 hy1 hy2 => ?_]
    apply hpx
    · calc x < ix * bs + bs := hx2
        _ = (ix + 1) * bs := (Nat.succ_mul ix bs).symm
        _ ≤ (img.w / bs) * bs := Nat.mul_le_mul_right bs hx
    · calc y < jy * bs + bs := hy2
        _ = (jy + 1) * bs := (Nat.succ_mul jy bs).symm
        _ ≤ (img.h / bs) * bs := Nat.mul_le_mul_right bs hy
  refine ⟨hcell, ?_⟩
  rw [entries, entries, ← hw, ← hh]
  apply flatMap_congr_mem
  intro jy hjy
  apply filterMap_congr_mem
  intro ix hix
  rw [hcell ix jy (List.mem_range.mp hix) (List.mem_range.mp hjy)]

/-- Witness for C5: two 3×3 images that differ only outside the 2×2-cell
crop rectangle (block 2) yield the same averages and entries. -/
theorem c5_witness :
    crop3a.w = crop3b.w ∧ crop3a.h = crop3b.h ∧
    (∀ x y, x < (crop3a.w / 2) * 2 → y < (crop3a.h / 2) * 2 → crop3a.px x y = crop3b.px x y) ∧
    ((∀ ix jy, ix < crop3a.w / 2 → jy < crop3a.h / 2 →
      cellAvg crop3a 2 ix jy = cellAvg crop3b 2 ix jy) ∧
    entries crop3a 2 10 8 = entries crop3b 2 10 8) :=
  have hpx : ∀ x y, x < (crop3a.w / 2) * 2 → y < (crop3a.h / 2) * 2 →
      crop3a.px x y = crop3b.px x y := by
    intro x y hx hy
    rw [show crop3a.w = 3 from rfl] at hx
    rw [show crop3a.h = 3 from rfl] at hy
    have : x < 2 ∧ y < 2 := by constructor <;> omega
    simp [crop3a, crop3b, this]
  ⟨rfl, rfl, hpx, c5_crop_irrelevant crop3a crop3b 2 10 8 rfl rfl hpx⟩

/-- Per-channel bound on the accumulated block sum when every pixel
channel is a byte. -/
lemma blockSum_le (img : Img) (bs ix jy : Nat)
    (hpx : ∀ x y, (img.px x y).r ≤ 255 ∧ (img.px x y).g ≤ 255 ∧
      (img.px x y).b ≤ 255 ∧ (img.px x y).a ≤ 255) :
    (blockSum img bs ix jy).r ≤ 255 * (bs * bs) ∧
    (blockSum img bs ix jy).g ≤ 255 * (bs * bs) ∧
    (blockSum img bs ix jy).b ≤ 255 * (bs * bs) ∧
    (blockSum img bs ix jy).a ≤ 255 * (bs * bs) := by
  rw [blockSum_spec]
  have key : ∀ f : Nat → Nat → Nat, (∀ x y, f x y ≤ 255) →
      (∑ y ∈ Finset.range bs, ∑ x ∈ Finset.range bs, f x y) ≤ 255 * (bs * bs) := by
    intro f hf
    calc (∑ y ∈ Finset.range bs, ∑ x ∈ Finset.range bs, f x y)
        ≤ ∑ _y ∈ Finset.range bs, ∑ _x ∈ Finset.range bs, 255 :=
          Finset.sum_le_sum fun y _ => Finset.sum_le_sum fun x _ => hf x y
      _ = 255 * (bs * bs) := by simp [Finset.sum_const, Finset.card_range, Nat.mul_comm,
          Nat.mul_assoc]
  exact ⟨key _ (fun x y => (hpx _ _).1), key _ (fun x y => (hpx _ _).2.1),
    key _ (fun x y => (hpx _ _).2.2.1), key _ (fun x y => (hpx _ _).2.2.2)⟩

/-- Claim C10: with 8-bit input channels and `bs ≥ 1`, every averaged
channel lies in `[0,255]`, so every emitted entry fits the fixed 8-bit
entry fields and `struct.pack("<ffBBBB", ...)` cannot fail on it. -/
theorem c10_average_in_byte_range (img : Img) (bs : Nat) (black alpha : Int)
    (hbs : 1 ≤ bs)
    (hpx : ∀ x y, (img.px x y).r ≤ 255 ∧ (img.px x y).g ≤ 255 ∧
      (img.px x y).b ≤ 255 ∧ (img.px x y).a ≤ 255) :
    (∀ ix jy, (cellAvg img bs ix jy).r ≤ 255 ∧ (cellAvg img bs ix jy).g ≤ 255 ∧
      (cellAvg img bs ix jy).b ≤ 255 ∧ (cellAvg img bs ix jy).a ≤ 255) ∧
    ∀ e ∈ entries img bs black alpha,
      (e.r ≤ 255 ∧ e.g ≤ 255 ∧ e.b ≤ 255 ∧ e.a ≤ 255) ∧ (packEntry e).isSome := by
  have hn : 0 < bs * bs := Nat.mul_pos hbs hbs
  have havg : ∀ ix jy, (cellAvg img bs ix jy).r ≤ 255 ∧ (cellAvg img bs ix jy).g ≤ 255 ∧
      (cellAvg img bs ix jy).b ≤ 255 ∧ (cellAvg img bs ix jy).a ≤ 255 := by
    intro ix jy
    obtain ⟨h1, h2, h3, h4⟩ := blockSum_le img bs ix jy hpx
    have div_le : ∀ s : Nat, s ≤ 255 * (bs * bs) → s / (bs * bs) ≤ 255 := by
      intro s hs
      calc s / (bs * bs) ≤ 255 * (bs * bs) / (bs * bs) := Nat.div_le_div_right hs
        _ = 255 := Nat.mul_div_cancel 255 hn
    exact ⟨div_le _ h1, div_le _ h2, div_le _ h3, div_le _ h4⟩
  refine ⟨havg, fun e he => ?_⟩
  obtain ⟨ix, jy, -, -, -, rfl⟩ := mem_entries_iff.mp he
  obtain ⟨h1, h2, h3, h4⟩ := havg ix jy
  refine ⟨⟨h1, h2, h3, h4⟩, ?_⟩
  simp [packEntry, mkEntry, h1, h2, h3, h4]

/-- Witness for C10 at the stripe image with block 2. -/
theorem c10_witness :
    (∀ x y, (stripe2.px x y).r ≤ 255 ∧ (stripe2.px x y).g ≤ 255 ∧
      (stripe2.px x y).b ≤ 255 ∧ (stripe2.px x y).a ≤ 255) ∧
    ((∀ ix jy, (cellAvg stripe2 2 ix jy).r ≤ 255 ∧ (cellAvg stripe2 2 ix jy).g ≤ 255 ∧
      (cellAvg stripe2 2 ix jy).b ≤ 255 ∧ (cellAvg stripe2 2 ix jy).a ≤ 255) ∧
    ∀ e ∈ entries stripe2 2 10 8,
      (e.r ≤ 255 ∧ e.g ≤ 255 ∧ e.b ≤ 255 ∧ e.a ≤ 255) ∧ (packEntry e).isSome) :=
  have hpx : ∀ x y, (stripe2.px x y).r ≤ 255 ∧ (stripe2.px x y).g ≤ 255 ∧
      (stripe2.px x y).b ≤ 255 ∧ (stripe2.px x y).a ≤ 255 := by
    intro x y
    simp only [stripe2]
    split <;> simp
  ⟨hpx, c10_average_in_byte_range stripe2 2 10 8 (by decide) hpx⟩

/-- Claim C7: the encoding is deterministic; two runs on equal inputs
produce identical outcomes, bytes and entry order included. -/
theorem c7_deterministic (img : Img) (block black alpha : Int)
    (img' : Img) (block' black' alpha' : Int)
    (h1 : img = img') (h2 : block = block') (h3 : black = black') (h4 : alpha = alpha') :
    run img block black alpha = run img' block' black' alpha' := by
  subst h1 h2 h3 h4; rfl

/-- Witness for C7 at a concrete input. -/
theorem c7_witness : run white2 2 10 8 = run white2 2 10 8 :=
  c7_deterministic white2 2 10 8 white2 2 10 8 rfl rfl rfl rfl

/-- Counterexample to C1 as stated: a 1×1 white image at block 1
encodes one entry into a 28-byte file (12-byte entry records), not the
claimed `16 + 16*count = 32` bytes. -/
theorem c1_counterexample :
    (run white1 1 10 8).err = none ∧
    (run white1 1 10 8).outFile.map List.length = some 28 ∧
    (entries white1 1 10 8).length = 1 ∧ 28 ≠ 16 + 16 * 1 := by with_unfolding_all decide

/-- Claim C1 (amended: entries are 12 bytes, not 16): a successful run
with positive block size writes exactly one 16-byte little-endian header
— magic `0x43454C31`, `count = length(entries)` as u32, `wCells`,
`hCells`, `block` as u16 and a zero u16 flags field — followed by
exactly `count` 12-byte entry records and nothing else, for a total of
`16 + 12*count` bytes. -/
theorem c1_file_layout (img : Img) (block black alpha : Int)
    (hb : 0 < block) (hwpos : 0 < img.w / block.toNat) (hhpos : 0 < img.h / block.toNat)
    (hok : (run img block black alpha).err = none) :
    ∃ (bytes : List Nat) (bodies : List (List Nat)),
      (run img block black alpha).outFile = some bytes ∧
      bytes = (u32le 0x43454C31 ++ u32le (entries img block.toNat black alpha).length ++
          u16le (img.w / block.toNat) ++ u16le (img.h / block.toNat) ++
          u16le block.toNat ++ u16le 0) ++ bodies.flatten ∧
      bodies.length = (entries img block.toNat black alpha).length ∧
      (∀ c ∈ bodies, c.length = 12) ∧
      bytes.length = 16 + 12 * (entries img block.toNat black alpha).length := by
  rw [run_pos img black alpha hb] at hok ⊢
  set es := entries img block.toNat black alpha with hes
  cases hhd : packHeader (Int.fdiv (img.w : Int) block) (Int.fdiv (img.h : Int) block)
      block es.length with
  | none =>
    rw [hhd] at hok
    simp [writeStream] at hok
  | some hdr =>
    rw [hhd] at hok
    have hstep : writeStream [] (some hdr :: es.map packEntry) =
        writeStream hdr (es.map packEntry) := by
      simp [writeStream]
    rw [hstep] at hok ⊢
    obtain ⟨bodies, h12, hout, hle, herr⟩ := writeStream_entries_spec es hdr
    obtain ⟨hhdr, hlen16, -, -⟩ := packHeader_some hhd
    refine ⟨hdr ++ bodies.flatten, bodies, hout, ?_, herr.mp hok, h12, ?_⟩
    · rw [hhdr, fdiv_toNat img.w hb, fdiv_toNat img.h hb]
    · rw [List.length_append, hlen16, flatten_length_of_uniform h12, herr.mp hok]

/-- Witness for the amended C1 at a concrete successful run. -/
theorem c1_witness :
    (0 : Int) < 1 ∧ 0 < white1.w / (1 : Int).toNat ∧ 0 < white1.h / (1 : Int).toNat ∧
    (run white1 1 10 8).err = none ∧
    ∃ (bytes : List Nat) (bodies : List (List Nat)),
      (run white1 1 10 8).outFile = some bytes ∧
      bytes = (u32le 0x43454C31 ++ u32le (entries white1 (1 : Int).toNat 10 8).length ++
          u16le (white1.w / (1 : Int).toNat) ++ u16le (white1.h / (1 : Int).toNat) ++
          u16le (1 : Int).toNat ++ u16le 0) ++ bodies.flatten ∧
      bodies.length = (entries white1 (1 : Int).toNat 10 8).length ∧
      (∀ c ∈ bodies, c.length = 12) ∧
      bytes.length = 16 + 12 * (entries white1 (1 : Int).toNat 10 8).length :=
  ⟨by decide, by decide, by decide, by with_unfolding_all decide,
    c1_file_layout white1 1 10 8 (by decide) (by decide) (by decide)
      (by with_unfolding_all decide)⟩

/-- Counterexample to C8 as stated: the run is not one atomic write —
a successful single-entry run issues two separate write operations
(header, then the entry), and a failed run (negative block size) leaves
a written (empty, incomplete) output file rather than none. -/
theorem c8_counterexample :
    (chunksOf white1 1 10 8).length = 2 ∧ 2 ≠ 1 ∧
    (run white2 (-2) 10 8).outFile = some [] ∧
    (run white2 (-2) 10 8).err = some PyError.structError := by with_unfolding_all decide

/-- Claim C8 (amended: the implementation streams the header and each
entry as separate writes, and a failed run can leave a truncated file;
however no partially written file passes a reader's magic/size sanity
check): any proper prefix of a complete output, and any file state left
by a run that raised, fails `sanityCheck`. -/
theorem c8_no_passing_partial (img : Img) (block black alpha : Int)
    (w p t : List Nat)
    (hw : (run img block black alpha).outFile = some w)
    (hpt : p ++ t = w)
    (hfail : t ≠ [] ∨ (run img block black alpha).err ≠ none) :
    ¬ sanityCheck p := by
  rintro ⟨hp16, -, hsize⟩
  by_cases hb0 : block = 0
  · rw [run, if_pos hb0] at hw
    simp at hw
  rw [run, if_neg hb0] at hw hfail
  simp only [chunksOf, List.singleton_append] at hw hfail
  set mlist := (if block < 0 then ([] : List Entry) else entries img block.toNat black alpha)
    with hml
  cases hhd : packHeader (Int.fdiv (img.w : Int) block) (Int.fdiv (img.h : Int) block)
      block mlist.length with
  | none =>
    rw [hhd] at hw
    simp only [writeStream, Option.some.injEq] at hw
    obtain ⟨rfl, -⟩ := List.append_eq_nil.mp (hpt.trans hw.symm)
    simp at hp16
  | some hdr =>
    rw [hhd] at hw hfail
    have hstep : writeStream [] (some hdr :: mlist.map packEntry) =
        writeStream hdr (mlist.map packEntry) := by
      simp [writeStream]
    rw [hstep] at hw hfail
    obtain ⟨bodies, h12, hout, hle, herr⟩ := writeStream_entries_spec mlist hdr
    rw [hout, Option.some.injEq] at hw
    obtain ⟨hhdr, hlen16, hmlt, -⟩ := packHeader_some hhd
    have hgd : ∀ i, i < p.length → p.getD i 0 = w.getD i 0 := by
      intro i hi
      rw [← hpt]
      exact (List.getD_append p t 0 i hi).symm
    have hgd16 : ∀ i, i < 16 → w.getD i 0 = hdr.getD i 0 := by
      intro i hi
      rw [← hw]
      exact List.getD_append hdr _ 0 i (by omega)
    have hcount : readU32 p 4 = mlist.length := by
      have h1 : readU32 p 4 = readU32 hdr 4 := by
        unfold readU32
        rw [hgd 4 (by omega), hgd 5 (by omega), hgd 6 (by omega), hgd 7 (by omega),
          hgd16 4 (by omega), hgd16 5 (by omega), hgd16 6 (by omega), hgd16 7 (by omega)]
      rw [h1, hhdr]
      have h2 := readU32_count hmlt
        (u16le (Int.fdiv (img.w : Int) block).toNat ++ u16le (Int.fdiv (img.h : Int) block).toNat ++
          u16le block.toNat ++ u16le 0)
      simpa [List.append_assoc] using h2
    have hple : p.length = 16 + 12 * mlist.length := by rw [hsize, hcount]
    have hwlen : w.length = 16 + 12 * bodies.length := by
      rw [← hw, List.length_append, hlen16, flatten_length_of_uniform h12]
    have hptlen : p.length + t.length = w.length := by
      rw [← hpt, List.length_append]
    rcases hfail with ht | herrne
    · have htpos : 0 < t.length := List.length_pos.mpr ht
      omega
    · have hne : bodies.length ≠ mlist.length := fun hcontra => herrne (herr.mpr hcontra)
      omega

/-- Witness for the amended C8: the 16-byte header alone — what a crash
between the two writes of `c8_counterexample`'s successful run would
leave — fails the reader's sanity check. -/
theorem c8_witness :
    (run white1 1 10 8).outFile =
        some ([49, 76, 69, 67, 1, 0, 0, 0, 1, 0, 1, 0, 1, 0, 0, 0] ++
          [0, 0, 0, 63, 0, 0, 0, 63, 255, 255, 255, 255]) ∧
    ¬ sanityCheck [49, 76, 69, 67, 1, 0, 0, 0, 1, 0, 1, 0, 1, 0, 0, 0] :=
  ⟨by with_unfolding_all decide,
    c8_no_passing_partial white1 1 10 8
      ([49, 76, 69, 67, 1, 0, 0, 0, 1, 0, 1, 0, 1, 0, 0, 0] ++
        [0, 0, 0, 63, 0, 0, 0, 63, 255, 255, 255, 255])
      [49, 76, 69, 67, 1, 0, 0, 0, 1, 0, 1, 0, 1, 0, 0, 0]
      [0, 0, 0, 63, 0, 0, 0, 63, 255, 255, 255, 255]
      (by with_unfolding_all decide) rfl (Or.inl (by decide))⟩

/-- C9 (code behavior at the failing inputs): the script never validates
the block size.  `block = 0` raises `ZeroDivisionError` at `w//block`
before the output file is opened; `block = -1` opens (and truncates) the
output file and then `struct.pack` raises on the negative `H` field,
leaving an empty output file behind — contradicting "fails with
InvalidParameter and produces no output file". -/
theorem c9_invalid_block_behavior :
    run white1 0 10 8 = ⟨none, some PyError.zeroDivisionError⟩ ∧
    run white1 (-1) 10 8 = ⟨some [], some PyError.structError⟩ := by
  with_unfolding_all decide

end CellsBin
